import Mathlib

/-!
# Verification of the tfprof `Profiler` (tensorflow/cc/profiler/profiler.h)

The public interface (`Profiler::AddStep`, `Profiler::ProfileGraph`,
`Profiler::ProfileNameScope`, `Profiler::ProfileOperations`,
`Profiler::SerializeToString`) is declared in
`tensorflow/cc/profiler/profiler.h`; the backing implementation
(`TFStats` and the view builders) is not part of this tree, so the
behaviour of each operation is modelled from the specification and
verified against the properties the specification states.
-/

namespace TfProf

/-- Modelled from the spec (§3 OpStats): per-operation accumulated
statistics: total execution time, total memory, occurrence count and the
set of step keys observed.  (Merged shape information is not modelled:
no verified property mentions shapes.) -/
@[ext]
structure OpStats where
  totalTime : Nat
  totalMemory : Nat
  count : Nat
  steps : Finset Int
deriving DecidableEq

instance : Zero OpStats := ⟨⟨0, 0, 0, ∅⟩⟩

instance : Add OpStats :=
  ⟨fun a b => ⟨a.totalTime + b.totalTime, a.totalMemory + b.totalMemory,
               a.count + b.count, a.steps ∪ b.steps⟩⟩

theorem OpStats.zero_def : (0 : OpStats) = ⟨0, 0, 0, ∅⟩ := rfl

theorem OpStats.add_def (a b : OpStats) :
    a + b = ⟨a.totalTime + b.totalTime, a.totalMemory + b.totalMemory,
             a.count + b.count, a.steps ∪ b.steps⟩ := rfl

instance : AddCommMonoid OpStats where
  add_assoc a b c := by
    simp [OpStats.add_def, Nat.add_assoc, Finset.union_assoc]
  zero_add a := by simp [OpStats.add_def, OpStats.zero_def]
  add_zero a := by simp [OpStats.add_def, OpStats.zero_def]
  add_comm a b := by
    simp [OpStats.add_def, Nat.add_comm, Finset.union_comm]
  nsmul := nsmulRec

@[simp]
theorem OpStats.totalTime_add (a b : OpStats) :
    (a + b).totalTime = a.totalTime + b.totalTime := rfl

@[simp]
theorem OpStats.totalMemory_add (a b : OpStats) :
    (a + b).totalMemory = a.totalMemory + b.totalMemory := rfl

@[simp]
theorem OpStats.count_add (a b : OpStats) :
    (a + b).count = a.count + b.count := rfl

@[simp]
theorem OpStats.totalTime_zero : (0 : OpStats).totalTime = 0 := rfl

@[simp]
theorem OpStats.totalMemory_zero : (0 : OpStats).totalMemory = 0 := rfl

@[simp]
theorem OpStats.count_zero : (0 : OpStats).count = 0 := rfl

/-- Modelled from the spec (§4.2): average time is total time divided by
occurrence count, with an explicit division-by-zero guard: zero
occurrences yield average 0 rather than an error. -/
def avgTime (s : OpStats) : Nat :=
  if s.count = 0 then 0 else s.totalTime / s.count

/-- Modelled from the spec (§3 TraceRecord): one observation of one
execution of an operation during one step, carrying its duration and the
memory it consumed.  (Tensor shapes are not modelled.) -/
structure TraceRecord where
  op : String
  time : Nat
  memory : Nat
deriving DecidableEq

/-- One operation of the declared graph topology: its unique name, its
declared type, its device, and the names of its declared inputs. -/
structure OpDef where
  name : String
  type : String
  device : String
  inputs : List String
deriving DecidableEq

/-- The declared graph topology (the model's `GraphDef`): the list of
declared operations. -/
structure GraphDef where
  ops : List OpDef
deriving DecidableEq

/-- Whether `n` names an operation declared in the topology. -/
def isOp (g : GraphDef) (n : String) : Bool :=
  g.ops.any (fun nd => nd.name == n)

/-- The declared inputs of the operation named `n` (empty when `n` is
not declared). -/
def inputsOf (g : GraphDef) (n : String) : List String :=
  match g.ops.find? (fun nd => nd.name == n) with
  | some nd => nd.inputs
  | none => []

/-- Modelled from the spec (§4.1): the synthetic bucket under which
trace records naming an operation unknown to the topology are
accumulated. -/
def unknownOpName : String := "_unknown_op_"

/-- The bucket a trace record is merged under: the operation itself when
declared, otherwise the synthetic unknown-op bucket. -/
def bucketFor (g : GraphDef) (op : String) : String :=
  if isOp g op then op else unknownOpName

/-- The `OpStats` contribution of one trace record observed at step
`s`: its time, its memory, one occurrence, one step key. -/
def recordStats (s : Int) (r : TraceRecord) : OpStats :=
  ⟨r.time, r.memory, 1, {s}⟩

/-- Modelled from the spec (§2, §3): the profiler's accumulated state —
the declared topology bound at construction, the `OpStatsIndex` mapping
each bucket name to its merged statistics, and the count of
unknown-operation warnings. -/
structure Profiler where
  graph : GraphDef
  index : String → OpStats
  unknownCount : Nat

/-- `Profiler profiler(graph)`: bind the topology; the index is empty. -/
def initProfiler (g : GraphDef) : Profiler :=
  ⟨g, fun _ => 0, 0⟩

/-- Point update of the index: add `v` to the stats of bucket `k`. -/
def updateIdx (f : String → OpStats) (k : String) (v : OpStats) :
    String → OpStats :=
  fun x => if x = k then f x + v else f x

/-- Modelled from the spec (§4.1, §4.2 Merge): merge one trace record
observed at step `s` into the index — summed into its bucket's running
totals, never overwriting; a record naming an unknown operation is
accumulated under the synthetic unknown-op bucket and bumps the warning
count instead of failing. -/
def mergeRecord (s : Int) (p : Profiler) (r : TraceRecord) : Profiler :=
  { p with
    index := updateIdx p.index (bucketFor p.graph r.op) (recordStats s r)
    unknownCount := p.unknownCount + (if isOp p.graph r.op then 0 else 1) }

/-- Modelled from the spec (§4.1): `AddStep(step, records)` merges every
record of the batch into the index under the given step.  It is total —
the header declares `void AddStep(...)`: there is no error channel. -/
def addStep (p : Profiler) (s : Int) (records : List TraceRecord) : Profiler :=
  records.foldl (mergeRecord s) p

/-- A whole ingestion session: apply a list of `AddStep` calls in order. -/
def applyBatches (p : Profiler) (bs : List (Int × List TraceRecord)) : Profiler :=
  bs.foldl (fun q b => addStep q b.1 b.2) p

/-- The contribution of one `AddStep` batch to the bucket `name`: the
sum of the per-record values of the records merged under `name`. -/
def contrib (g : GraphDef) (name : String) (b : Int × List TraceRecord) : OpStats :=
  ((b.2.filter (fun r => bucketFor g r.op == name)).map (recordStats b.1)).sum

/-- The declared upstream edge relation: `edgeRel g a b` holds when `b`
is a declared input of the operation named `a`. -/
def edgeRel (g : GraphDef) (a b : String) : Prop :=
  b ∈ inputsOf g a

instance (g : GraphDef) (a b : String) : Decidable (edgeRel g a b) := by
  unfold edgeRel; infer_instance

/-- One expansion step of upstream reachability: add the declared inputs
of every operation already reached. -/
def stepClose (g : GraphDef) (s : Finset String) : Finset String :=
  s ∪ s.biUnion (fun a => (inputsOf g a).toFinset)

/-- Every name that appears as a declared input of some operation. -/
def allInputNames (g : GraphDef) : Finset String :=
  (g.ops.flatMap OpDef.inputs).toFinset

/-- Enough iterations of `stepClose` to reach its fixpoint. -/
def closureFuel (g : GraphDef) : Nat :=
  (allInputNames g).card + 1

/-- The upstream reachability closure of `n` (including `n` itself),
computed by iterating `stepClose` to its fixpoint. -/
def closureSet (g : GraphDef) (n : String) : Finset String :=
  (stepClose g)^[closureFuel g] {n}

theorem subset_stepClose (g : GraphDef) (s : Finset String) :
    s ⊆ stepClose g s :=
  Finset.subset_union_left

theorem inputsOf_subset_allInputNames (g : GraphDef) (a : String) :
    (inputsOf g a).toFinset ⊆ allInputNames g := by
  intro x hx
  simp only [List.mem_toFinset] at hx
  unfold inputsOf at hx
  rcases hfind : g.ops.find? (fun nd => nd.name == a) with _ | nd
  · rw [hfind] at hx; simp at hx
  · rw [hfind] at hx
    have hmem : nd ∈ g.ops := List.mem_of_find?_eq_some hfind
    simp only [allInputNames, List.mem_toFinset, List.mem_flatMap]
    exact ⟨nd, hmem, hx⟩

theorem stepClose_subset_union (g : GraphDef) (s : Finset String) :
    stepClose g s ⊆ s ∪ allInputNames g := by
  intro x hx
  simp only [stepClose, Finset.mem_union, Finset.mem_biUnion] at hx
  rcases hx with hx | ⟨a, _, hx⟩
  · exact Finset.mem_union_left _ hx
  · exact Finset.mem_union_right _ (inputsOf_subset_allInputNames g a hx)

theorem iterate_subset_univ (g : GraphDef) (n : String) (k : Nat) :
    (stepClose g)^[k] {n} ⊆ insert n (allInputNames g) := by
  induction k with
  | zero => simp
  | succ k ih =>
      rw [Function.iterate_succ_apply']
      intro x hx
      rcases Finset.mem_union.mp (stepClose_subset_union g _ hx) with hx | hx
      · exact ih hx
      · exact Finset.mem_insert_of_mem hx

theorem stepClose_mono (g : GraphDef) {s t : Finset String} (h : s ⊆ t) :
    stepClose g s ⊆ stepClose g t := by
  unfold stepClose
  exact Finset.union_subset_union h (Finset.biUnion_subset_biUnion_of_subset_left _ h)

theorem iterate_subset_succ (g : GraphDef) (n : String) (k : Nat) :
    (stepClose g)^[k] {n} ⊆ (stepClose g)^[k + 1] {n} := by
  rw [Function.iterate_succ_apply']
  exact subset_stepClose g _

theorem mem_closureSet_self (g : GraphDef) (n : String) : n ∈ closureSet g n := by
  have h : ∀ k, n ∈ (stepClose g)^[k] ({n} : Finset String) := by
    intro k
    induction k with
    | zero => simp
    | succ k ih =>
        rw [Function.iterate_succ_apply']
        exact subset_stepClose g _ ih
  exact h _

theorem closureSet_fixed (g : GraphDef) (n : String) :
    stepClose g (closureSet g n) = closureSet g n := by
  have key : ∀ k : Nat,
      (stepClose g)^[k + 1] ({n} : Finset String) = (stepClose g)^[k] {n} ∨
      k + 1 ≤ ((stepClose g)^[k] ({n} : Finset String)).card := by
    intro k
    induction k with
    | zero => right; simp
    | succ k ih =>
        rcases ih with heq | hcard
        · left
          calc (stepClose g)^[k + 1 + 1] ({n} : Finset String)
              = stepClose g ((stepClose g)^[k + 1] {n}) :=
                Function.iterate_succ_apply' _ _ _
            _ = stepClose g ((stepClose g)^[k] {n}) := by rw [heq]
            _ = (stepClose g)^[k + 1] {n} :=
                (Function.iterate_succ_apply' _ _ _).symm
        · by_cases heq : (stepClose g)^[k + 1] ({n} : Finset String) =
              (stepClose g)^[k] {n}
          · left
            calc (stepClose g)^[k + 1 + 1] ({n} : Finset String)
                = stepClose g ((stepClose g)^[k + 1] {n}) :=
                  Function.iterate_succ_apply' _ _ _
              _ = stepClose g ((stepClose g)^[k] {n}) := by rw [heq]
              _ = (stepClose g)^[k + 1] {n} :=
                  (Function.iterate_succ_apply' _ _ _).symm
          · right
            have hss : (stepClose g)^[k] ({n} : Finset String) ⊂
                (stepClose g)^[k + 1] {n} :=
              lt_of_le_of_ne (iterate_subset_succ g n k) (Ne.symm heq)
            have := Finset.card_lt_card hss
            omega
  rcases key (closureFuel g) with heq | hcard
  · have : (stepClose g)^[closureFuel g + 1] ({n} : Finset String) =
        stepClose g (closureSet g n) := by
      rw [Function.iterate_succ_apply']; rfl
    rw [← this, heq]; rfl
  · exfalso
    have hsub := iterate_subset_univ g n (closureFuel g)
    have hle := Finset.card_le_card hsub
    have hins : (insert n (allInputNames g)).card ≤ (allInputNames g).card + 1 :=
      Finset.card_insert_le _ _
    unfold closureFuel at hcard hle
    omega

theorem mem_closureSet_sound (g : GraphDef) (n m : String)
    (h : m ∈ closureSet g n) : Relation.ReflTransGen (edgeRel g) n m := by
  have key : ∀ k, ∀ x, x ∈ (stepClose g)^[k] ({n} : Finset String) →
      Relation.ReflTransGen (edgeRel g) n x := by
    intro k
    induction k with
    | zero => intro x hx; simp at hx; subst hx; exact Relation.ReflTransGen.refl
    | succ k ih =>
        intro x hx
        rw [Function.iterate_succ_apply'] at hx
        simp only [stepClose, Finset.mem_union, Finset.mem_biUnion,
          List.mem_toFinset] at hx
        rcases hx with hx | ⟨a, ha, hx⟩
        · exact ih x hx
        · exact Relation.ReflTransGen.tail (ih a ha) hx
  exact key _ _ h

theorem mem_closureSet_complete (g : GraphDef) (n m : String)
    (h : Relation.ReflTransGen (edgeRel g) n m) : m ∈ closureSet g n := by
  induction h with
  | refl => exact mem_closureSet_self g n
  | tail _ hedge ih =>
      rename_i b c _
      rw [← closureSet_fixed g n]
      simp only [stepClose, Finset.mem_union, Finset.mem_biUnion,
        List.mem_toFinset]
      exact Or.inr ⟨b, ih, hedge⟩

theorem mem_closureSet_iff (g : GraphDef) (n m : String) :
    m ∈ closureSet g n ↔ Relation.ReflTransGen (edgeRel g) n m :=
  ⟨mem_closureSet_sound g n m, mem_closureSet_complete g n m⟩

/-- Modelled from the spec (§4.3): explicit cycle detection on the
declared topology — some declared operation reaches itself through the
declared input edges. -/
def hasCycle (g : GraphDef) : Bool :=
  g.ops.any (fun nd =>
    (inputsOf g nd.name).any (fun b => decide (nd.name ∈ closureSet g b)))

theorem hasCycle_iff (g : GraphDef) :
    hasCycle g = true ↔ ∃ a, Relation.TransGen (edgeRel g) a a := by
  constructor
  · intro h
    simp only [hasCycle, List.any_eq_true, decide_eq_true_eq] at h
    rcases h with ⟨nd, _, b, hb, hcl⟩
    exact ⟨nd.name, Relation.TransGen.head' hb (mem_closureSet_sound g b nd.name hcl)⟩
  · rintro ⟨a, ha⟩
    rcases Relation.TransGen.head'_iff.mp ha with ⟨b, hab, hba⟩
    have hdecl : ∃ nd ∈ g.ops, nd.name = a := by
      unfold edgeRel inputsOf at hab
      rcases hfind : g.ops.find? (fun nd => nd.name == a) with _ | nd
      · rw [hfind] at hab; simp at hab
      · refine ⟨nd, List.mem_of_find?_eq_some hfind, ?_⟩
        have := List.find?_some hfind
        simpa using this
    rcases hdecl with ⟨nd, hmem, hname⟩
    simp only [hasCycle, List.any_eq_true, decide_eq_true_eq]
    refine ⟨nd, hmem, b, ?_, ?_⟩
    · rw [hname]; exact hab
    · rw [hname]; exact mem_closureSet_complete g b a hba

theorem hasCycle_eq_false_iff (g : GraphDef) :
    hasCycle g = false ↔ ∀ a, ¬ Relation.TransGen (edgeRel g) a a := by
  rw [← Bool.not_eq_true, hasCycle_iff]
  push_neg
  rfl

theorem acyclic_of_rank (g : GraphDef) (f : String → Nat)
    (hf : ∀ a b, edgeRel g a b → f b < f a) :
    ∀ a, ¬ Relation.TransGen (edgeRel g) a a := by
  have hlt : ∀ a b, Relation.TransGen (edgeRel g) a b → f b < f a := by
    intro a b h
    induction h with
    | single h1 => exact hf _ _ h1
    | tail _ h1 ih => exact lt_trans (hf _ _ h1) ih
  intro a ha
  exact lt_irrefl _ (hlt a a ha)

/-- Modelled from the spec (§3 GraphNode, §4.3): a node's cumulative
statistics — its own `OpStats` plus the `OpStats` of every declared
operation in its upstream reachability closure, each counted exactly
once (the closure is a set, so multiplicity along paths is irrelevant). -/
def cumStats (g : GraphDef) (idx : String → OpStats) (n : String) : OpStats :=
  ((g.ops.filter (fun m => decide (m.name ∈ closureSet g n))).map
    (fun m => idx m.name)).sum

/-- Modelled from the spec (§4.3, §7): the result of `ProfileGraph` —
one entry per declared operation carrying its cumulative statistics,
plus the unknown-operation warning count.  (Ordering/filtering options
are not modelled: no verified property mentions them.) -/
structure GraphView where
  nodes : List (String × OpStats)
  unknownOps : Nat
deriving DecidableEq

/-- Modelled from the spec (§4.3, §7b): `ProfileGraph` fails with an
explicit error on a cyclic declared topology, returning no partial
result; otherwise it returns the DAG view built from the declared
operations only (unknown operations are omitted) together with the
unknown-operation warning count. -/
def profileGraph (p : Profiler) : Except String GraphView :=
  if hasCycle p.graph then
    Except.error "cycle detected in declared graph topology"
  else
    Except.ok
      ⟨p.graph.ops.map (fun nd => (nd.name, cumStats p.graph p.index nd.name)),
       p.unknownCount⟩

/-- Modelled from the spec (§3 ScopeNode): one node of the name-scope
trie — its own leaf statistics (nonzero only when an operation's name
ends at this node) and its children keyed by the next path segment. -/
inductive ScopeNode where
  | node (own : OpStats) (children : List (String × ScopeNode))

mutual

/-- Insert an operation's statistics at the end of its segment path,
creating intermediate scope nodes as needed.  A name that ends at an
internal node adds to that node's own leaf statistics, so a node can be
both a scope and a leaf. -/
def insertPath : List String → OpStats → ScopeNode → ScopeNode
  | [], s, ScopeNode.node own cs => ScopeNode.node (own + s) cs
  | seg :: rest, s, ScopeNode.node own cs =>
      ScopeNode.node own (updateChild seg rest s cs)
termination_by p _ _ => (p.length, 0)

/-- Update (or create) the child keyed `seg` among `cs`, inserting the
remaining path below it. -/
def updateChild : String → List String → OpStats → List (String × ScopeNode) →
    List (String × ScopeNode)
  | seg, rest, s, [] => [(seg, insertPath rest s (ScopeNode.node 0 []))]
  | seg, rest, s, c :: tl =>
      if c.1 = seg then (c.1, insertPath rest s c.2) :: tl
      else c :: updateChild seg rest s tl
termination_by _ rest _ l => (rest.length, l.length + 1)

end

mutual

/-- Modelled from the spec (§4.4): post-order aggregation — a scope
node's aggregate is its own leaf statistics plus the sum of its
children's aggregates. -/
def aggregate : ScopeNode → OpStats
  | ScopeNode.node own cs => own + aggChildren cs

/-- Sum of the aggregates of a list of children. -/
def aggChildren : List (String × ScopeNode) → OpStats
  | [] => 0
  | c :: tl => aggregate c.2 + aggChildren tl

end

/-- Split an operation name into its name-scope path segments. -/
def splitName (n : String) : List String :=
  n.splitOn "/"

/-- Modelled from the spec (§4.4): build the name-scope trie by
inserting every declared operation's statistics at its slash-separated
path. -/
def buildScopeTree (g : GraphDef) (idx : String → OpStats) : ScopeNode :=
  g.ops.foldl (fun t nd => insertPath (splitName nd.name) (idx nd.name) t)
    (ScopeNode.node 0 [])

/-- Modelled from the spec (§4.4): `ProfileNameScope` returns the root
of the name-scope trie built over the accumulated index. -/
def profileNameScope (p : Profiler) : ScopeNode :=
  buildScopeTree p.graph p.index

/-- The flat total of one type bucket: the sum of the accumulated
statistics of every declared operation of that type. -/
def bucketTotal (p : Profiler) (t : String) : OpStats :=
  ((p.graph.ops.filter (fun nd => nd.type == t)).map
    (fun nd => p.index nd.name)).sum

/-- Modelled from the spec (§4.5): `ProfileOperations` groups the
declared operations by their declared type and aggregates a flat total
per type bucket — no hierarchy, no cumulative semantics. -/
def profileOperations (p : Profiler) : List (String × OpStats) :=
  ((p.graph.ops.map OpDef.type).dedup).map (fun t => (t, bucketTotal p t))

/-- The grand total of the accumulated index over all declared
operations. -/
def grandTotal (p : Profiler) : OpStats :=
  (p.graph.ops.map (fun nd => p.index nd.name)).sum

/-- Modelled from the spec (§4.6): `SerializeToString` emits the
accumulated state as a byte string — a pure function of the declared
topology, the accumulated index and the warning count. -/
def serializeToString (p : Profiler) : String :=
  String.intercalate ";"
    (p.graph.ops.map (fun nd =>
      let s := p.index nd.name
      nd.name ++ ":" ++ toString s.totalTime ++ "," ++
        toString s.totalMemory ++ "," ++ toString s.count)) ++
  "|unknown:" ++ toString (p.index unknownOpName).totalTime ++ "," ++
  toString p.unknownCount

theorem mergeRecord_graph (s : Int) (p : Profiler) (r : TraceRecord) :
    (mergeRecord s p r).graph = p.graph := rfl

theorem mergeRecord_index (s : Int) (p : Profiler) (r : TraceRecord)
    (name : String) :
    (mergeRecord s p r).index name =
      p.index name +
        (if bucketFor p.graph r.op = name then recordStats s r else 0) := by
  simp only [mergeRecord, updateIdx]
  by_cases h : name = bucketFor p.graph r.op
  · simp [h]
  · have h2 : bucketFor p.graph r.op ≠ name := fun h' => h h'.symm
    simp [h, h2]

theorem addStep_graph (p : Profiler) (s : Int) (rs : List TraceRecord) :
    (addStep p s rs).graph = p.graph := by
  induction rs generalizing p with
  | nil => rfl
  | cons r rs ih => simpa [addStep, List.foldl_cons] using ih (mergeRecord s p r)

theorem addStep_index (p : Profiler) (s : Int) (rs : List TraceRecord)
    (name : String) :
    (addStep p s rs).index name = p.index name + contrib p.graph name (s, rs) := by
  induction rs generalizing p with
  | nil => simp [addStep, contrib]
  | cons r rs ih =>
      have step : addStep p s (r :: rs) = addStep (mergeRecord s p r) s rs := rfl
      rw [step, ih, mergeRecord_graph, mergeRecord_index]
      simp only [contrib, List.filter_cons]
      by_cases h : bucketFor p.graph r.op = name
      · simp [h, add_assoc, add_comm, add_left_comm]
      · have h' : (bucketFor p.graph r.op == name) = false := by
          simpa using h
        simp [h, h']

theorem addStep_unknownCount (p : Profiler) (s : Int) (rs : List TraceRecord) :
    (addStep p s rs).unknownCount =
      p.unknownCount + rs.countP (fun r => ! isOp p.graph r.op) := by
  induction rs generalizing p with
  | nil => simp [addStep]
  | cons r rs ih =>
      have step : addStep p s (r :: rs) = addStep (mergeRecord s p r) s rs := rfl
      rw [step, ih]
      simp only [mergeRecord_graph, mergeRecord, List.countP_cons]
      by_cases h : isOp p.graph r.op
      · simp [h]
      · simp only [Bool.not_eq_true] at h
        simp [h]
        omega

theorem applyBatches_graph (p : Profiler) (bs : List (Int × List TraceRecord)) :
    (applyBatches p bs).graph = p.graph := by
  induction bs generalizing p with
  | nil => rfl
  | cons b bs ih =>
      have step : applyBatches p (b :: bs) = applyBatches (addStep p b.1 b.2) bs := rfl
      rw [step, ih, addStep_graph]

theorem applyBatches_index (p : Profiler) (bs : List (Int × List TraceRecord))
    (name : String) :
    (applyBatches p bs).index name =
      p.index name + (bs.map (contrib p.graph name)).sum := by
  induction bs generalizing p with
  | nil => simp [applyBatches]
  | cons b bs ih =>
      have step : applyBatches p (b :: bs) = applyBatches (addStep p b.1 b.2) bs := rfl
      rw [step, ih, addStep_graph, addStep_index]
      simp [add_assoc]

theorem applyBatches_unknownCount (p : Profiler)
    (bs : List (Int × List TraceRecord)) :
    (applyBatches p bs).unknownCount =
      p.unknownCount +
        (bs.map (fun b => b.2.countP (fun r => ! isOp p.graph r.op))).sum := by
  induction bs generalizing p with
  | nil => simp [applyBatches]
  | cons b bs ih =>
      have step : applyBatches p (b :: bs) = applyBatches (addStep p b.1 b.2) bs := rfl
      rw [step, ih, addStep_graph, addStep_unknownCount]
      simp [add_assoc]

theorem OpStats.count_sum (l : List OpStats) :
    l.sum.count = (l.map OpStats.count).sum := by
  induction l with
  | nil => simp
  | cons a l ih => simp [ih]

theorem OpStats.totalTime_sum (l : List OpStats) :
    l.sum.totalTime = (l.map OpStats.totalTime).sum := by
  induction l with
  | nil => simp
  | cons a l ih => simp [ih]

theorem sum_recordStats_count (s : Int) (l : List TraceRecord) :
    ((l.map (recordStats s)).sum).count = l.length := by
  induction l with
  | nil => rfl
  | cons r l ih => simp [recordStats, ih, Nat.add_comm]

theorem sum_recordStats_totalTime (s : Int) (l : List TraceRecord) :
    ((l.map (recordStats s)).sum).totalTime = (l.map TraceRecord.time).sum := by
  induction l with
  | nil => rfl
  | cons r l ih => simp [recordStats, ih]

theorem bucketFor_eq_iff (g : GraphDef) (name op : String)
    (hk : isOp g name = true) (hn : name ≠ unknownOpName) :
    bucketFor g op = name ↔ op = name := by
  unfold bucketFor
  by_cases h : isOp g op
  · simp [h]
  · simp only [h, Bool.false_eq_true, if_false]
    constructor
    · intro heq; exact absurd heq.symm hn
    · intro heq; subst heq; simp [hk] at h

theorem contrib_known (g : GraphDef) (name : String) (s : Int)
    (rs : List TraceRecord) (hk : isOp g name = true) (hn : name ≠ unknownOpName) :
    contrib g name (s, rs) =
      ((rs.filter (fun r => r.op == name)).map (recordStats s)).sum := by
  unfold contrib
  congr 1
  congr 1
  apply List.filter_congr
  intro r _
  rw [Bool.eq_iff_iff]
  simp only [beq_iff_eq]
  exact bucketFor_eq_iff g name r.op hk hn

theorem aggregate_node (own : OpStats) (cs : List (String × ScopeNode)) :
    aggregate (ScopeNode.node own cs) = own + aggChildren cs := by
  rw [aggregate]

theorem aggChildren_nil : aggChildren [] = 0 := by
  rw [aggChildren]

theorem aggChildren_cons (c : String × ScopeNode) (tl : List (String × ScopeNode)) :
    aggChildren (c :: tl) = aggregate c.2 + aggChildren tl := by
  rw [aggChildren]

theorem aggregate_insertPath (p : List String) (s : OpStats) (t : ScopeNode) :
    aggregate (insertPath p s t) = aggregate t + s := by
  induction p generalizing t with
  | nil =>
      cases t with
      | node own cs =>
          rw [insertPath, aggregate_node, aggregate_node]
          abel
  | cons seg rest ih =>
      cases t with
      | node own cs =>
          rw [insertPath, aggregate_node, aggregate_node]
          have key : aggChildren (updateChild seg rest s cs) = aggChildren cs + s := by
            induction cs with
            | nil =>
                rw [updateChild, aggChildren_cons, aggChildren_nil]
                show aggregate (insertPath rest s (ScopeNode.node 0 [])) + 0 = 0 + s
                rw [ih, aggregate_node, aggChildren_nil]
                abel
            | cons c tl iht =>
                rw [updateChild]
                by_cases h : c.1 = seg
                · rw [if_pos h, aggChildren_cons, aggChildren_cons, ih]
                  abel
                · rw [if_neg h, aggChildren_cons, aggChildren_cons, iht]
                  abel
          rw [key]
          abel

theorem aggregate_buildScopeTree (g : GraphDef) (idx : String → OpStats) :
    aggregate (buildScopeTree g idx) =
      (g.ops.map (fun nd => idx nd.name)).sum := by
  have key : ∀ (l : List OpDef) (t : ScopeNode),
      aggregate (l.foldl (fun t nd => insertPath (splitName nd.name) (idx nd.name) t) t) =
        aggregate t + (l.map (fun nd => idx nd.name)).sum := by
    intro l
    induction l with
    | nil => intro t; simp
    | cons nd l ihl =>
        intro t
        rw [List.foldl_cons, ihl, aggregate_insertPath]
        simp [add_assoc, add_comm, add_left_comm]
  have := key g.ops (ScopeNode.node 0 [])
  rw [buildScopeTree, this, aggregate_node, aggChildren_nil]
  abel

theorem sum_map_ite_single (ts : List String) (x : String) (v : OpStats)
    (hnd : ts.Nodup) :
    ((ts.map (fun t => if x = t then v else 0)).sum) =
      if x ∈ ts then v else 0 := by
  induction ts with
  | nil => simp
  | cons t ts ih =>
      rcases List.nodup_cons.mp hnd with ⟨hnotmem, hnd'⟩
      by_cases h : x = t
      · subst h
        simp only [List.map_cons, List.sum_cons, if_pos rfl, List.mem_cons,
          true_or, if_pos]
        have hx : x ∉ ts := hnotmem
        rw [ih hnd']
        simp [hx]
      · simp only [List.map_cons, List.sum_cons, if_neg h, List.mem_cons]
        rw [ih hnd', zero_add]
        by_cases hm : x ∈ ts
        · simp [hm, h]
        · simp [hm, h]

theorem sum_buckets_eq_filter (ops : List OpDef) (ts : List String)
    (f : OpDef → OpStats) (hnd : ts.Nodup) :
    (ts.map (fun t => ((ops.filter (fun nd => nd.type == t)).map f).sum)).sum =
      ((ops.filter (fun nd => nd.type ∈ ts)).map f).sum := by
  induction ops with
  | nil =>
      simp
  | cons op rest ih =>
      have expand : ∀ t : String,
          (((op :: rest).filter (fun nd => nd.type == t)).map f).sum =
            (if op.type = t then f op else 0) +
              ((rest.filter (fun nd => nd.type == t)).map f).sum := by
        intro t
        rw [List.filter_cons]
        by_cases h : op.type = t
        · simp [h]
        · simp [h]
      calc (ts.map (fun t => (((op :: rest).filter (fun nd => nd.type == t)).map f).sum)).sum
          = (ts.map (fun t => (if op.type = t then f op else 0) +
              ((rest.filter (fun nd => nd.type == t)).map f).sum)).sum := by
            congr 1
            exact List.map_congr_left (fun t _ => expand t)
        _ = (ts.map (fun t => if op.type = t then f op else 0)).sum +
              (ts.map (fun t => ((rest.filter (fun nd => nd.type == t)).map f).sum)).sum := by
            rw [← List.sum_map_add]
        _ = (if op.type ∈ ts then f op else 0) +
              ((rest.filter (fun nd => nd.type ∈ ts)).map f).sum := by
            rw [sum_map_ite_single ts op.type (f op) hnd, ih]
        _ = (((op :: rest).filter (fun nd => nd.type ∈ ts)).map f).sum := by
            rw [List.filter_cons]
            by_cases h : op.type ∈ ts
            · simp [h]
            · simp [h]

theorem sum_filter_closure_split (l : List OpDef) (idx : String → OpStats)
    (n : String) (S : Finset String) (hnS : n ∉ S)
    (hnd : (l.map OpDef.name).Nodup) (nd : OpDef) (hmem : nd ∈ l)
    (hname : nd.name = n) :
    ((l.filter (fun m => decide (m.name ∈ insert n S))).map
        (fun m => idx m.name)).sum =
      idx n + ((l.filter (fun m => decide (m.name ∈ S))).map
        (fun m => idx m.name)).sum := by
  induction l with
  | nil => cases hmem
  | cons op rest ih =>
      have hnd' : (rest.map OpDef.name).Nodup := (List.nodup_cons.mp hnd).2
      have hopnot : op.name ∉ rest.map OpDef.name := (List.nodup_cons.mp hnd).1
      by_cases hop : op.name = n
      · have hrest : ∀ m ∈ rest, m.name ≠ n := by
          intro m hm heq
          exact hopnot (by
            rw [hop, ← heq]
            exact List.mem_map_of_mem OpDef.name hm)
        have hfe : rest.filter (fun m => decide (m.name ∈ insert n S)) =
            rest.filter (fun m => decide (m.name ∈ S)) := by
          apply List.filter_congr
          intro m hm
          simp only [decide_eq_decide, Finset.mem_insert]
          constructor
          · rintro (h | h)
            · exact absurd h (hrest m hm)
            · exact h
          · exact Or.inr
        rw [List.filter_cons, List.filter_cons]
        have h1 : (decide (op.name ∈ insert n S)) = true := by
          simp [hop]
        have h2 : (decide (op.name ∈ S)) = true → False := by
          simp only [decide_eq_true_eq]
          rw [hop]; exact hnS
        simp only [h1, if_true]
        have h2' : (decide (op.name ∈ S)) = false := by
          cases hd : decide (op.name ∈ S)
          · rfl
          · exact absurd (h2 hd) (fun x => x)
        simp only [h2', Bool.false_eq_true, if_false]
        rw [List.map_cons, List.sum_cons, hfe, hop]
      · have hmem' : nd ∈ rest := by
          rcases List.mem_cons.mp hmem with h | h
          · exact absurd (by rw [h] at hname; exact hname) hop
          · exact h
        have ihr := ih hnd' hmem'
        rw [List.filter_cons, List.filter_cons]
        have hiff : (decide (op.name ∈ insert n S)) = (decide (op.name ∈ S)) := by
          simp only [decide_eq_decide, Finset.mem_insert]
          constructor
          · rintro (h | h)
            · exact absurd h hop
            · exact h
          · exact Or.inr
        rw [hiff]
        cases hd : decide (op.name ∈ S)
        · simp only [if_false, Bool.false_eq_true]
          exact ihr
        · simp only [if_true]
          rw [List.map_cons, List.sum_cons, List.map_cons, List.sum_cons, ihr]
          abel

theorem avgTime_eq (s : OpStats) : avgTime s = s.totalTime / s.count := by
  unfold avgTime
  split
  · rename_i h
    rw [h, Nat.div_zero]
  · rfl

theorem contrib_sum_same_step (g : GraphDef) (name : String) (s : Int)
    (bs : List (Int × List TraceRecord)) (hstep : ∀ b ∈ bs, b.1 = s)
    (hk : isOp g name = true) (hn : name ≠ unknownOpName) :
    (bs.map (contrib g name)).sum =
      (((bs.flatMap Prod.snd).filter (fun r => r.op == name)).map
        (recordStats s)).sum := by
  induction bs with
  | nil => simp
  | cons b tl ih =>
      have hb : b.1 = s := hstep b (List.mem_cons_self b tl)
      have htl : ∀ x ∈ tl, x.1 = s := fun x hx => hstep x (List.mem_cons_of_mem b hx)
      rw [List.map_cons, List.sum_cons, ih htl]
      have hc : contrib g name b =
          ((b.2.filter (fun r => r.op == name)).map (recordStats s)).sum := by
        have : contrib g name b = contrib g name (b.1, b.2) := rfl
        rw [this, contrib_known g name b.1 b.2 hk hn, hb]
      rw [hc, List.flatMap_cons, List.filter_append, List.map_append,
        List.sum_append]

theorem map_contrib_eq_flatMap (g : GraphDef) (name : String)
    (bs : List (Int × List TraceRecord)) :
    (bs.map (contrib g name)).sum =
      (bs.flatMap (fun b =>
        (b.2.filter (fun r => bucketFor g r.op == name)).map
          (recordStats b.1))).sum := by
  induction bs with
  | nil => simp
  | cons b tl ih =>
      rw [List.map_cons, List.sum_cons, ih, List.flatMap_cons, List.sum_append]
      rfl

/-- Claim C1: for every acyclic declared topology and every accumulated
index, the cumulative statistics that `ProfileGraph` computes for a
declared node equal the node's own `OpStats` plus the `OpStats` of each
operation in its upstream reachability closure (the set `S` of names
strictly reachable from the node through declared input edges) counted
exactly once, even when an ancestor is reachable via multiple paths:
the right-hand side sums each closure member a single time. -/
theorem profileGraph_cumulative_closure (p : Profiler) (nd : OpDef)
    (S : Finset String)
    (hacyc : hasCycle p.graph = false)
    (hnodup : (p.graph.ops.map OpDef.name).Nodup)
    (hmem : nd ∈ p.graph.ops)
    (hS : ∀ x, x ∈ S ↔
      x ≠ nd.name ∧ Relation.TransGen (edgeRel p.graph) nd.name x) :
    ∃ v, profileGraph p = Except.ok v ∧
      (nd.name, cumStats p.graph p.index nd.name) ∈ v.nodes ∧
      cumStats p.graph p.index nd.name =
        p.index nd.name +
          ((p.graph.ops.filter (fun m => decide (m.name ∈ S))).map
            (fun m => p.index m.name)).sum := by
  refine ⟨⟨p.graph.ops.map
      (fun m => (m.name, cumStats p.graph p.index m.name)), p.unknownCount⟩,
    ?_, ?_, ?_⟩
  · simp [profileGraph, hacyc]
  · exact List.mem_map_of_mem _ hmem
  · have hclos : closureSet p.graph nd.name = insert nd.name S := by
      apply Finset.ext
      intro x
      rw [mem_closureSet_iff, Finset.mem_insert, hS x,
        Relation.reflTransGen_iff_eq_or_transGen]
      constructor
      · rintro (h | h)
        · exact Or.inl h
        · by_cases hx : x = nd.name
          · exact Or.inl hx
          · exact Or.inr ⟨hx, h⟩
      · rintro (h | ⟨_, htg⟩)
        · exact Or.inl h
        · exact Or.inr htg
    have hnS : nd.name ∉ S := by
      rw [hS]
      rintro ⟨h, _⟩
      exact h rfl
    unfold cumStats
    rw [hclos]
    exact sum_filter_closure_split p.graph.ops p.index nd.name S hnS hnodup
      nd hmem rfl

/-- Claim C2: for every operation known to the topology and every single
step, when multiple trace records for that operation are ingested within
the step — including across repeated `AddStep` calls keyed by the same
step — their values are summed rather than overwritten: the occurrence
count equals the exact number of records naming the operation, the total
time is the sum of the record times, and the average time equals total
time divided by that count. -/
theorem addStep_same_step_sums (g : GraphDef) (s : Int)
    (bs : List (Int × List TraceRecord)) (name : String)
    (hstep : ∀ b ∈ bs, b.1 = s)
    (hk : isOp g name = true) (hn : name ≠ unknownOpName) :
    ((applyBatches (initProfiler g) bs).index name).count =
        ((bs.flatMap Prod.snd).filter (fun r => r.op == name)).length ∧
      ((applyBatches (initProfiler g) bs).index name).totalTime =
        (((bs.flatMap Prod.snd).filter (fun r => r.op == name)).map
          TraceRecord.time).sum ∧
      avgTime ((applyBatches (initProfiler g) bs).index name) =
        ((applyBatches (initProfiler g) bs).index name).totalTime /
          ((applyBatches (initProfiler g) bs).index name).count := by
  have hidx : (applyBatches (initProfiler g) bs).index name =
      (((bs.flatMap Prod.snd).filter (fun r => r.op == name)).map
        (recordStats s)).sum := by
    rw [applyBatches_index]
    show (0 : OpStats) + (bs.map (contrib g name)).sum = _
    rw [zero_add]
    exact contrib_sum_same_step g name s bs hstep hk hn
  refine ⟨?_, ?_, avgTime_eq _⟩
  · rw [hidx, sum_recordStats_count]
  · rw [hidx, sum_recordStats_totalTime]

/-- Claim C3: for every set of `AddStep` calls whose step keys are
pairwise disjoint, the totals in the index after all calls equal the sum
of the per-record values, and every ordering of the calls yields the
same accumulated state (index totals and warning count): ingestion is
commutative. -/
theorem addStep_disjoint_commutative (g : GraphDef)
    (bs bs' : List (Int × List TraceRecord))
    (hperm : bs.Perm bs')
    (hnd : (bs.map Prod.fst).Nodup) :
    (∀ name, (applyBatches (initProfiler g) bs).index name =
        (bs.flatMap (fun b =>
          (b.2.filter (fun r => bucketFor g r.op == name)).map
            (recordStats b.1))).sum) ∧
      (∀ name, (applyBatches (initProfiler g) bs).index name =
        (applyBatches (initProfiler g) bs').index name) ∧
      (applyBatches (initProfiler g) bs).unknownCount =
        (applyBatches (initProfiler g) bs').unknownCount := by
  have hidx : ∀ (cs : List (Int × List TraceRecord)) (name : String),
      (applyBatches (initProfiler g) cs).index name =
        (cs.map (contrib g name)).sum := by
    intro cs name
    rw [applyBatches_index]
    show (0 : OpStats) + (cs.map (contrib g name)).sum = _
    rw [zero_add]
  refine ⟨?_, ?_, ?_⟩
  · intro name
    rw [hidx, map_contrib_eq_flatMap]
  · intro name
    rw [hidx, hidx]
    exact List.Perm.sum_eq (hperm.map (contrib g name))
  · rw [applyBatches_unknownCount, applyBatches_unknownCount]
    show 0 + _ = 0 + _
    rw [Nat.zero_add, Nat.zero_add]
    exact List.Perm.sum_eq
      (hperm.map (fun b => b.2.countP (fun r => ! isOp g r.op)))

/-- Claim C4: if the declared input edges of the topology contain a
cycle (some operation reaches itself through them), `ProfileGraph` fails
with an explicit error and no partial result is returned; the query is a
pure read, so the accumulated index is untouched. -/
theorem profileGraph_cyclic_error (p : Profiler)
    (hcyc : ∃ a, Relation.TransGen (edgeRel p.graph) a a) :
    profileGraph p =
      Except.error "cycle detected in declared graph topology" := by
  have h : hasCycle p.graph = true := (hasCycle_iff p.graph).mpr hcyc
  simp [profileGraph, h]

/-- Claim C5: a trace record naming an operation absent from the
declared topology is still ingested: it is accumulated under the
synthetic unknown-op bucket rather than dropped or fatal, the warning
count is incremented, and a subsequent `ProfileGraph` (on an acyclic
topology) succeeds, omits the operation from the DAG and reports a
non-zero unknown-operation warning count. -/
theorem addStep_unknown_op_bucket (p : Profiler) (s : Int) (r : TraceRecord)
    (hunk : isOp p.graph r.op = false)
    (hacyc : hasCycle p.graph = false) :
    (addStep p s [r]).index unknownOpName =
        p.index unknownOpName + recordStats s r ∧
      (addStep p s [r]).unknownCount = p.unknownCount + 1 ∧
      (∃ v, profileGraph (addStep p s [r]) = Except.ok v ∧
        v.unknownOps = p.unknownCount + 1 ∧ 0 < v.unknownOps ∧
        ∀ e ∈ v.nodes, e.1 ≠ r.op) := by
  have hbucket : bucketFor p.graph r.op = unknownOpName := by
    unfold bucketFor
    simp [hunk]
  have hstep : addStep p s [r] = mergeRecord s p r := rfl
  have hgr : (addStep p s [r]).graph = p.graph := rfl
  refine ⟨?_, ?_, ?_⟩
  · rw [hstep, mergeRecord_index, hbucket, if_pos rfl]
  · rw [hstep]
    simp [mergeRecord, hunk]
  · refine ⟨⟨(addStep p s [r]).graph.ops.map
        (fun nd => (nd.name, cumStats (addStep p s [r]).graph
          (addStep p s [r]).index nd.name)),
        (addStep p s [r]).unknownCount⟩, ?_, ?_, ?_, ?_⟩
    · have hc : hasCycle (addStep p s [r]).graph = false := by
        rw [hgr]; exact hacyc
      simp [profileGraph, hc]
    · show (addStep p s [r]).unknownCount = p.unknownCount + 1
      rw [hstep]
      simp [mergeRecord, hunk]
    · show 0 < (addStep p s [r]).unknownCount
      rw [hstep]
      simp [mergeRecord, hunk]
    · intro e he heq
      simp only [List.mem_map] at he
      rcases he with ⟨nd, hnd, hend⟩
      have : nd.name = r.op := by rw [← hend] at heq; exact heq
      have : isOp p.graph r.op = true := by
        rw [← this]
        unfold isOp
        rw [hgr] at hnd
        exact List.any_eq_true.mpr ⟨nd, hnd, by simp⟩
      rw [this] at hunk
      cases hunk

/-- Claim C6: for every accumulated index and every naming scheme —
including operation names that are strict prefixes of other names, which
act as both scope and leaf — the aggregate statistics of the root node
returned by `ProfileNameScope` equal exactly the sum of all leaf
operations' `OpStats`. -/
theorem profileNameScope_root_aggregate (p : Profiler) :
    aggregate (profileNameScope p) =
      (p.graph.ops.map (fun nd => p.index nd.name)).sum :=
  aggregate_buildScopeTree p.graph p.index

/-- Claim C7: for every accumulated index, summing the per-type
aggregate totals across all type buckets returned by
`ProfileOperations` yields exactly the grand total of the index over
all declared operations: no operation is counted in more than one
bucket and none is dropped. -/
theorem profileOperations_total (p : Profiler) :
    ((profileOperations p).map Prod.snd).sum = grandTotal p := by
  unfold profileOperations grandTotal bucketTotal
  rw [List.map_map]
  have hcomp : (Prod.snd ∘ fun t =>
      (t, ((p.graph.ops.filter (fun nd => nd.type == t)).map
        (fun nd => p.index nd.name)).sum)) = fun t =>
      ((p.graph.ops.filter (fun nd => nd.type == t)).map
        (fun nd => p.index nd.name)).sum := rfl
  rw [hcomp, sum_buckets_eq_filter p.graph.ops _ _ (List.nodup_dedup _)]
  have hall : ∀ nd ∈ p.graph.ops,
      decide (nd.type ∈ (p.graph.ops.map OpDef.type).dedup) = true := by
    intro nd hnd
    simp only [decide_eq_true_eq, List.mem_dedup]
    exact List.mem_map_of_mem OpDef.type hnd
  rw [List.filter_eq_self.mpr hall]

/-- Claim C8: for every operation's statistics, the average time equals
total time divided by occurrence count, and when the occurrence count is
zero the average is defined to be 0 rather than raising a
division-by-zero error. -/
theorem avgTime_div_guard (s : OpStats) :
    avgTime s = s.totalTime / s.count ∧ (s.count = 0 → avgTime s = 0) := by
  refine ⟨avgTime_eq s, ?_⟩
  intro h
  unfold avgTime
  rw [if_pos h]

/-- Claim C9: `SerializeToString` is a pure, deterministic function of
the accumulated state: any two profilers whose accumulated states agree
(same topology, extensionally equal index, same warning count) produce
byte-identical output. -/
theorem serializeToString_deterministic (p q : Profiler)
    (hg : p.graph = q.graph) (hi : ∀ n, p.index n = q.index n)
    (hu : p.unknownCount = q.unknownCount) :
    serializeToString p = serializeToString q := by
  have heq : p = q := by
    cases p with
    | mk pg pi pu =>
        cases q with
        | mk qg qi qu =>
            simp only at hg hi hu
            subst hg
            subst hu
            have : pi = qi := funext hi
            rw [this]
  rw [heq]

/-- Claim C10: `AddStep` is declared `void` in the header and is
modelled as a total function: for every step key and record batch the
ingestion interface signals no failure at the call site — the topology
is preserved, problems with the ingested records (unknown operations)
are only recorded in the accumulated state, and they become observable
through the results of later profile queries such as `ProfileGraph`'s
warning count. -/
theorem addStep_no_error_channel (p : Profiler) (s : Int)
    (rs : List TraceRecord) :
    (addStep p s rs).graph = p.graph ∧
      (addStep p s rs).unknownCount =
        p.unknownCount + rs.countP (fun r => ! isOp p.graph r.op) ∧
      (hasCycle p.graph = false →
        ∃ v, profileGraph (addStep p s rs) = Except.ok v ∧
          v.unknownOps =
            p.unknownCount + rs.countP (fun r => ! isOp p.graph r.op)) := by
  refine ⟨addStep_graph p s rs, addStep_unknownCount p s rs, ?_⟩
  intro hacyc
  have hc : hasCycle (addStep p s rs).graph = false := by
    rw [addStep_graph]; exact hacyc
  refine ⟨⟨(addStep p s rs).graph.ops.map
      (fun nd => (nd.name, cumStats (addStep p s rs).graph
        (addStep p s rs).index nd.name)),
      (addStep p s rs).unknownCount⟩, ?_, ?_⟩
  · simp [profileGraph, hc]
  · show (addStep p s rs).unknownCount = _
    exact addStep_unknownCount p s rs

/-- A concrete diamond topology: `d` depends on `b` and `c`, both of
which depend on `a`. -/
def gW : GraphDef :=
  ⟨[⟨"a", "T", "cpu", []⟩, ⟨"b", "T", "cpu", ["a"]⟩,
    ⟨"c", "U", "cpu", ["a"]⟩, ⟨"d", "T", "cpu", ["b", "c"]⟩]⟩

/-- A concrete accumulated index over the diamond topology. -/
def idxW : String → OpStats := fun n =>
  if n = "a" then ⟨7, 1, 1, ∅⟩
  else if n = "b" then ⟨3, 1, 1, ∅⟩
  else if n = "c" then ⟨4, 0, 1, ∅⟩
  else if n = "d" then ⟨5, 2, 1, ∅⟩
  else 0

/-- A concrete profiler state over the diamond topology. -/
def pW : Profiler := ⟨gW, idxW, 0⟩

/-- The sink node of the diamond. -/
def dOp : OpDef := ⟨"d", "T", "cpu", ["b", "c"]⟩

/-- The upstream closure of `d` in the diamond, excluding `d`. -/
def SW : Finset String := {"a", "b", "c"}

/-- A concrete cyclic topology: `x` and `y` are inputs of each other. -/
def gC : GraphDef :=
  ⟨[⟨"x", "T", "cpu", ["y"]⟩, ⟨"y", "T", "cpu", ["x"]⟩]⟩

/-- A profiler bound to the cyclic topology. -/
def pC : Profiler := ⟨gC, fun _ => 0, 0⟩

/-- A record naming an operation absent from the diamond topology. -/
def rG : TraceRecord := ⟨"ghost", 5, 2⟩

/-- Two batches keyed by the same step, with repeated records for `b`. -/
def bsW : List (Int × List TraceRecord) :=
  [(0, [⟨"b", 4, 1⟩, ⟨"b", 6, 3⟩, ⟨"a", 2, 0⟩]), (0, [⟨"b", 2, 0⟩])]

/-- Two batches with disjoint step keys. -/
def bsW2 : List (Int × List TraceRecord) :=
  [(0, [⟨"a", 2, 0⟩]), (1, [⟨"b", 3, 1⟩])]

/-- The same two batches, ingested in the opposite order. -/
def bsW2' : List (Int × List TraceRecord) :=
  [(1, [⟨"b", 3, 1⟩]), (0, [⟨"a", 2, 0⟩])]

theorem edgeRel_gW_cases (a b : String) (h : edgeRel gW a b) :
    (a = "b" ∧ b = "a") ∨ (a = "c" ∧ b = "a") ∨
      (a = "d" ∧ (b = "b" ∨ b = "c")) := by
  have hdecl : ∃ nd ∈ gW.ops, nd.name = a ∧ b ∈ nd.inputs := by
    unfold edgeRel inputsOf at h
    rcases hfind : gW.ops.find? (fun nd => nd.name == a) with _ | nd
    · rw [hfind] at h
      simp at h
    · rw [hfind] at h
      refine ⟨nd, List.mem_of_find?_eq_some hfind, ?_, h⟩
      have := List.find?_some hfind
      simpa using this
  rcases hdecl with ⟨nd, hnd, hname, hb⟩
  have hnd' : nd = ⟨"a", "T", "cpu", []⟩ ∨ nd = ⟨"b", "T", "cpu", ["a"]⟩ ∨
      nd = ⟨"c", "U", "cpu", ["a"]⟩ ∨ nd = ⟨"d", "T", "cpu", ["b", "c"]⟩ := by
    simpa [gW] using hnd
  rcases hnd' with rfl | rfl | rfl | rfl
  · simp at hb
  · simp at hb
    exact Or.inl ⟨hname.symm, hb⟩
  · simp at hb
    exact Or.inr (Or.inl ⟨hname.symm, hb⟩)
  · simp at hb
    exact Or.inr (Or.inr ⟨hname.symm, hb⟩)

/-- A rank function witnessing that the diamond topology is acyclic. -/
def fW : String → Nat := fun n =>
  if n = "d" then 2 else if n = "b" then 1 else if n = "c" then 1 else 0

theorem hasCycle_gW_false : hasCycle gW = false := by
  rw [hasCycle_eq_false_iff]
  apply acyclic_of_rank gW fW
  intro a b h
  rcases edgeRel_gW_cases a b h with ⟨ha, hb⟩ | ⟨ha, hb⟩ | ⟨ha, hb⟩
  · subst ha; subst hb; decide
  · subst ha; subst hb; decide
  · subst ha
    rcases hb with rfl | rfl
    · decide
    · decide

theorem reach_gW_d (x : String)
    (htg : Relation.TransGen (edgeRel gW) "d" x) :
    x = "a" ∨ x = "b" ∨ x = "c" := by
  induction htg with
  | single h =>
      rcases edgeRel_gW_cases _ _ h with ⟨ha, _⟩ | ⟨ha, _⟩ | ⟨_, hb⟩
      · exact absurd ha (by decide)
      · exact absurd ha (by decide)
      · rcases hb with rfl | rfl
        · exact Or.inr (Or.inl rfl)
        · exact Or.inr (Or.inr rfl)
  | tail _ h ih =>
      rcases ih with rfl | rfl | rfl
      · rcases edgeRel_gW_cases _ _ h with ⟨ha, _⟩ | ⟨ha, _⟩ | ⟨ha, _⟩ <;>
          exact absurd ha (by decide)
      · rcases edgeRel_gW_cases _ _ h with ⟨_, hb⟩ | ⟨ha, _⟩ | ⟨ha, _⟩
        · exact Or.inl hb
        · exact absurd ha (by decide)
        · exact absurd ha (by decide)
      · rcases edgeRel_gW_cases _ _ h with ⟨ha, _⟩ | ⟨_, hb⟩ | ⟨ha, _⟩
        · exact absurd ha (by decide)
        · exact Or.inl hb
        · exact absurd ha (by decide)

theorem SW_spec :
    ∀ x, x ∈ SW ↔ x ≠ "d" ∧ Relation.TransGen (edgeRel gW) "d" x := by
  intro x
  constructor
  · intro hx
    have hx' : x = "a" ∨ x = "b" ∨ x = "c" := by
      simpa [SW] using hx
    have edb : edgeRel gW "d" "b" := by decide
    have edc : edgeRel gW "d" "c" := by decide
    have eba : edgeRel gW "b" "a" := by decide
    rcases hx' with rfl | rfl | rfl
    · exact ⟨by decide, Relation.TransGen.head edb (Relation.TransGen.single eba)⟩
    · exact ⟨by decide, Relation.TransGen.single edb⟩
    · exact ⟨by decide, Relation.TransGen.single edc⟩
  · rintro ⟨_, htg⟩
    rcases reach_gW_d x htg with rfl | rfl | rfl
    · simp [SW]
    · simp [SW]
    · simp [SW]

theorem profileGraph_cumulative_closure_witness :
    hasCycle pW.graph = false ∧ (pW.graph.ops.map OpDef.name).Nodup ∧
      dOp ∈ pW.graph.ops ∧
      (∀ x, x ∈ SW ↔
        x ≠ dOp.name ∧ Relation.TransGen (edgeRel pW.graph) dOp.name x) ∧
      (∃ v, profileGraph pW = Except.ok v ∧
        (dOp.name, cumStats pW.graph pW.index dOp.name) ∈ v.nodes ∧
        cumStats pW.graph pW.index dOp.name =
          pW.index dOp.name +
            ((pW.graph.ops.filter (fun m => decide (m.name ∈ SW))).map
              (fun m => pW.index m.name)).sum) :=
  ⟨hasCycle_gW_false, by decide, by decide, SW_spec,
    profileGraph_cumulative_closure pW dOp SW hasCycle_gW_false (by decide)
      (by decide) SW_spec⟩

theorem addStep_same_step_sums_witness :
    (∀ b ∈ bsW, b.1 = 0) ∧ isOp gW "b" = true ∧ "b" ≠ unknownOpName ∧
      (((applyBatches (initProfiler gW) bsW).index "b").count =
          ((bsW.flatMap Prod.snd).filter (fun r => r.op == "b")).length ∧
        ((applyBatches (initProfiler gW) bsW).index "b").totalTime =
          (((bsW.flatMap Prod.snd).filter (fun r => r.op == "b")).map
            TraceRecord.time).sum ∧
        avgTime ((applyBatches (initProfiler gW) bsW).index "b") =
          ((applyBatches (initProfiler gW) bsW).index "b").totalTime /
            ((applyBatches (initProfiler gW) bsW).index "b").count) :=
  ⟨by decide, by decide, by decide,
    addStep_same_step_sums gW 0 bsW "b" (by decide) (by decide) (by decide)⟩

theorem addStep_disjoint_commutative_witness :
    bsW2.Perm bsW2' ∧ (bsW2.map Prod.fst).Nodup ∧
      ((∀ name, (applyBatches (initProfiler gW) bsW2).index name =
          (bsW2.flatMap (fun b =>
            (b.2.filter (fun r => bucketFor gW r.op == name)).map
              (recordStats b.1))).sum) ∧
        (∀ name, (applyBatches (initProfiler gW) bsW2).index name =
          (applyBatches (initProfiler gW) bsW2').index name) ∧
        (applyBatches (initProfiler gW) bsW2).unknownCount =
          (applyBatches (initProfiler gW) bsW2').unknownCount) :=
  ⟨by decide, by decide,
    addStep_disjoint_commutative gW bsW2 bsW2' (by decide) (by decide)⟩

theorem profileGraph_cyclic_error_witness :
    (∃ a, Relation.TransGen (edgeRel pC.graph) a a) ∧
      profileGraph pC =
        Except.error "cycle detected in declared graph topology" :=
  have e1 : edgeRel gC "x" "y" := by decide
  have e2 : edgeRel gC "y" "x" := by decide
  have htg : Relation.TransGen (edgeRel gC) "x" "x" :=
    Relation.TransGen.head e1 (Relation.TransGen.single e2)
  ⟨⟨"x", htg⟩, profileGraph_cyclic_error pC ⟨"x", htg⟩⟩

theorem addStep_unknown_op_bucket_witness :
    isOp pW.graph rG.op = false ∧ hasCycle pW.graph = false ∧
      ((addStep pW 3 [rG]).index unknownOpName =
          pW.index unknownOpName + recordStats 3 rG ∧
        (addStep pW 3 [rG]).unknownCount = pW.unknownCount + 1 ∧
        (∃ v, profileGraph (addStep pW 3 [rG]) = Except.ok v ∧
          v.unknownOps = pW.unknownCount + 1 ∧ 0 < v.unknownOps ∧
          ∀ e ∈ v.nodes, e.1 ≠ rG.op)) :=
  ⟨by decide, hasCycle_gW_false,
    addStep_unknown_op_bucket pW 3 rG (by decide) hasCycle_gW_false⟩

theorem avgTime_div_guard_witness :
    avgTime ⟨5, 0, 0, ∅⟩ =
        (⟨5, 0, 0, ∅⟩ : OpStats).totalTime / (⟨5, 0, 0, ∅⟩ : OpStats).count ∧
      (⟨5, 0, 0, ∅⟩ : OpStats).count = 0 ∧ avgTime ⟨5, 0, 0, ∅⟩ = 0 :=
  ⟨(avgTime_div_guard ⟨5, 0, 0, ∅⟩).1, rfl,
    (avgTime_div_guard ⟨5, 0, 0, ∅⟩).2 rfl⟩

theorem serializeToString_deterministic_witness :
    pW.graph = pW.graph ∧ (∀ n, pW.index n = pW.index n) ∧
      pW.unknownCount = pW.unknownCount ∧
      serializeToString pW = serializeToString pW :=
  ⟨rfl, fun _ => rfl, rfl,
    serializeToString_deterministic pW pW rfl (fun _ => rfl) rfl⟩

theorem addStep_no_error_channel_witness :
    hasCycle pW.graph = false ∧
      (∃ v, profileGraph (addStep pW 2 [rG]) = Except.ok v ∧
        v.unknownOps =
          pW.unknownCount + [rG].countP (fun r => ! isOp pW.graph r.op)) :=
  ⟨hasCycle_gW_false, (addStep_no_error_channel pW 2 [rG]).2.2 hasCycle_gW_false⟩

end TfProf
